import Mathlib

/-!
Shallow embedding of the phy cluster store (`phy/io/kwik/store_items.py`):
the `FeatureMasks` and `Waveforms` store items, their merge / assign
recombination of per-cluster disk arrays, consistency checks on persisted
file sizes, chunked bulk generation, and the derived mask statistics.

Conventions of the embedding:
* a record (spike) is a natural number, its global index in the source model;
* a per-cluster disk field is a `List` of rows, one row per record, in the
  stored order; flat float arrays on disk carry no extra structure beyond
  the row sequence, so rows are kept abstract (`α`) where the code treats
  them opaquely, and as `List ℚ` where the code computes with the values
  (mask statistics); float32 values are embedded as rationals;
* file names and update descriptions, strings in the source, are embedded
  as enumerated types;
* helpers imported from `phy.utils` and `phy.io.store` are not part of the
  given sources and are modelled from the specification, as marked in the
  corresponding doc comments.
-/

namespace PhyStore

/-- Order on (record index, row) pairs by record index, used for the
canonical ascending-record-index ordering of recombined arrays. -/
def fstLE {α : Type} (p q : Nat × α) : Prop := p.1 ≤ q.1

instance {α : Type} : DecidableRel (@fstLE α) :=
  fun p q => inferInstanceAs (Decidable (p.1 ≤ q.1))

instance {α : Type} : IsTotal (Nat × α) fstLE :=
  ⟨fun p q => Nat.le_total p.1 q.1⟩

instance {α : Type} : IsTrans (Nat × α) fstLE :=
  ⟨fun _ _ _ h1 h2 => Nat.le_trans h1 h2⟩

/-- Strict version of `fstLE`, used to identify two sorted permutations
when the record indices are distinct. -/
def fstLT {α : Type} (p q : Nat × α) : Prop := p.1 < q.1

instance {α : Type} : IsAntisymm (Nat × α) fstLT :=
  ⟨fun _ _ h1 h2 => absurd h2 (Nat.lt_asymm h1)⟩

/-- Modelled from the spec: `_index_of(arr, lookup)` from `phy.utils.array`
(not under src/) replaces every record index in `arr` by its position in
the `lookup` list (the stored order of a cluster). -/
def indexOfList (arr lookup : List Nat) : List Nat :=
  arr.map fun s => lookup.indexOf s

/-- All (record index, row) pairs contributed by the given clusters: each
cluster pairs its record-index list with its stored rows, and the pair
lists are concatenated in the given cluster order. -/
def allClusterPairs {α : Type} (spc : Nat → List Nat) (arrays : Nat → List α)
    (clusters : List Nat) : List (Nat × α) :=
  clusters.flatMap fun c => (spc c).zip (arrays c)

/-- Modelled from the spec: `_concatenate_per_cluster_arrays` from
`phy.utils.array` (not under src/). Per the spec it concatenates the
per-cluster arrays, visiting clusters in ascending cluster-id order, into
one array whose record order follows the canonical ascending order of the
union of the record-index sets: a stable per-record-index sort across the
contributing arrays. -/
def concatenatePerClusterArrays {α : Type} (spc : Nat → List Nat)
    (arrays : Nat → List α) (clusters : List Nat) : List α :=
  ((allClusterPairs spc arrays
      (List.insertionSort (fun a b => a ≤ b) clusters)).insertionSort
        fstLE).map Prod.snd

/-- The formulation used by the claims: the rows of all contributing
clusters, interleaved in ascending global record-index order over the
union of the record-index sets. -/
def interleavedByRecordIndex {α : Type} (spc : Nat → List Nat)
    (arrays : Nat → List α) (clusters : List Nat) : List α :=
  ((allClusterPairs spc arrays clusters).insertionSort fstLE).map Prod.snd

/-- History marker of a clustering update; `up.history` is not `none`
exactly when the update replays an undo or a redo. -/
inductive HistoryMark where
  | undo
  | redo
deriving DecidableEq

/-- Discriminator tag of a clustering update (`up.description` in the
source, a string there). -/
inductive UpdateKind where
  | merge
  | assign
  | other
deriving DecidableEq

/-- Embeds the clustering update object received by `on_cluster`: deleted
and added cluster ids, the descendant relation, the per-cluster
record-index sets before and after the change, the history marker and the
discriminator tag. -/
structure ClusterUpdate where
  description : UpdateKind
  history : Option HistoryMark
  deleted : List Nat
  added : List Nat
  descendants : List (Nat × Nat)
  old_spikes_per_cluster : Nat → List Nat
  new_spikes_per_cluster : Nat → List Nat

namespace FeatureMasks

/-- Embeds `FeatureMasks._merge` for one disk field (the source loops the
same computation over the `features` and `masks` fields): load the stored
array of every deleted cluster and store their canonical-order
concatenation under the single added cluster id (`up.added[0]`). -/
def mergeField {α : Type} (up : ClusterUpdate) (store : Nat → List α) :
    Nat → List α :=
  let concat := concatenatePerClusterArrays up.old_spikes_per_cluster store
    up.deleted
  fun c => if c = up.added.headD 0 then concat else store c

end FeatureMasks

/-- The contributing old clusters of one added cluster in an assign
update: the old components of the descendant pairs whose new component is
the added cluster (`[o for (o, n) in up.descendants if n == new]`). -/
def oldClustersFor (up : ClusterUpdate) (new : Nat) : List Nat :=
  (up.descendants.filter fun p => decide (p.2 = new)).map Prod.fst

namespace FeatureMasks

/-- Embeds the body of the `for new in up.added` loop of
`FeatureMasks._assign` for one disk field: the contributing old clusters
are those related to `new` by the descendant relation; from each old
cluster, the records also present in the new cluster are located in the
old stored order (`np.in1d` then `_index_of`), the corresponding rows are
extracted, and the sub-arrays are recombined in canonical order. -/
def assignOne {α : Type} [Inhabited α] (up : ClusterUpdate)
    (store : Nat → List α) (new : Nat) : List α :=
  let new_spikes := up.new_spikes_per_cluster new
  concatenatePerClusterArrays
    (fun old => (up.old_spikes_per_cluster old).filter fun s =>
      decide (s ∈ new_spikes))
    (fun old =>
      (indexOfList
          ((up.old_spikes_per_cluster old).filter fun s =>
            decide (s ∈ new_spikes))
          (up.old_spikes_per_cluster old)).map fun i =>
        (store old).getD i default)
    (oldClustersFor up new)

/-- Embeds `FeatureMasks._assign` for one disk field: every added cluster
receives the array built by `assignOne` from the old arrays (the source
loads all old arrays once, before the loop over added clusters). -/
def assignField {α : Type} [Inhabited α] (up : ClusterUpdate)
    (store : Nat → List α) : Nat → List α :=
  up.added.foldl
    (fun st new => fun c => if c = new then assignOne up store new else st c)
    store

/-- The (record index, row) pairs an added cluster of an assign update
must receive per the claim: from every contributing old cluster, exactly
the pairs whose record also belongs to the new cluster record-index
set. -/
def specAssignPairs {α : Type} (up : ClusterUpdate) (store : Nat → List α)
    (new : Nat) : List (Nat × α) :=
  (oldClustersFor up new).flatMap fun old =>
    ((up.old_spikes_per_cluster old).zip (store old)).filter fun q =>
      decide (q.1 ∈ up.new_spikes_per_cluster new)

/-- The claim formulation for one added cluster of an assign update: the
rows of `specAssignPairs`, listed in ascending record-index order. -/
def specAssignedArray {α : Type} (up : ClusterUpdate) (store : Nat → List α)
    (new : Nat) : List α :=
  ((specAssignPairs up store new).insertionSort fstLE).map Prod.snd

end FeatureMasks

/-- Names of the per-cluster disk files (strings in the source). -/
inductive FieldName where
  | features
  | masks
  | waveforms
  | waveforms_spikes
deriving DecidableEq

/-- Byte sizes of the persisted per-cluster files: `none` when the file is
missing, `some n` when the file exists with `n` bytes (the source queries
`op.exists` and `os.stat(path).st_size`). -/
def FileSizes : Type := Nat → FieldName → Option Nat

/-- Embeds `FeatureMasks.is_consistent`: for the cluster and its current
record list, the `masks` file must hold `n * n_channels * 4` bytes and the
`features` file `n * n_channels * n_features * 4` bytes, where `n` is the
record count; a missing file or a size mismatch yields `false`. -/
def FeatureMasks.is_consistent (n_channels n_features : Nat)
    (files : FileSizes) (cluster : Nat) (spikes : List Nat) : Bool :=
  let cluster_size := spikes.length
  let expected_file_sizes :=
    [(FieldName.masks, cluster_size * n_channels * 4),
     (FieldName.features, cluster_size * n_channels * n_features * 4)]
  expected_file_sizes.all fun pr =>
    match files cluster pr.1 with
    | none => false
    | some actual_file_size => pr.2 == actual_file_size

/-- Embeds `Waveforms.is_consistent`: both files must exist, and the
record counts implied by floor division of the byte sizes (8 bytes per
spike id, `n_channels * n_samples * 4` bytes per waveform) must agree; the
`spikes` argument is not used by the source. -/
def Waveforms.is_consistent (n_channels n_samples : Nat)
    (files : FileSizes) (cluster : Nat) ( _spikes : List Nat) : Bool :=
  match files cluster FieldName.waveforms,
      files cluster FieldName.waveforms_spikes with
  | some file_size_w, some file_size_s =>
    let n_spikes_s := file_size_s / 8
    let n_spikes_w := file_size_w / (n_channels * n_samples * 4)
    n_spikes_s == n_spikes_w
  | _, _ => false

/-- Per-column sums of a stack of mask rows (`masks.sum(axis=0)` in
`FeatureMasks._store_extra_fields`); a mask row is one record, one entry
per channel. -/
def colSums (n_channels : Nat) (masks : List (List ℚ)) : List ℚ :=
  (List.range n_channels).map fun j => (masks.map fun r => r.getD j 0).sum

/-- Per-column means (`sum_masks / float(masks.shape[0])`); the divisor is
the number of stored rows. -/
def colMeans (n_channels : Nat) (masks : List (List ℚ)) : List ℚ :=
  (colSums n_channels masks).map fun s => s / ((masks.length : ℚ))

/-- Channels whose mean mask strictly exceeds the fixed `0.1` cutoff
(`np.nonzero(mean_masks > .1)[0]`), in ascending channel order. -/
def unmaskedChannels (n_channels : Nat) (masks : List (List ℚ)) : List Nat :=
  (List.range n_channels).filter fun j =>
    decide ((1 : ℚ)/10 < (colMeans n_channels masks).getD j 0)

/-- Order on channel indices by mean mask value, used to embed
`np.argsort(mean_masks)`; the embedding fixes the stable ascending sort
(ties in argsort are implementation defined in the source). -/
def meanLE (means : List ℚ) (i j : Nat) : Prop :=
  means.getD i 0 ≤ means.getD j 0

instance (means : List ℚ) : DecidableRel (meanLE means) :=
  fun i j => inferInstanceAs (Decidable (means.getD i 0 ≤ means.getD j 0))

instance (means : List ℚ) : IsTotal Nat (meanLE means) :=
  ⟨fun i j => le_total (means.getD i 0) (means.getD j 0)⟩

instance (means : List ℚ) : IsTrans Nat (meanLE means) :=
  ⟨fun _ _ _ h1 h2 => le_trans h1 h2⟩

/-- Embeds the `main_channels` computation: sort all channels by mean mask
value descending (`np.argsort(mean_masks)[::-1]`), then keep only the
unmasked channels, preserving that order (sort-then-filter). -/
def mainChannels (n_channels : Nat) (masks : List (List ℚ)) : List Nat :=
  ((List.insertionSort (meanLE (colMeans n_channels masks))
      (List.range n_channels)).reverse).filter fun c =>
    decide (c ∈ unmaskedChannels n_channels masks)

/-- Elementwise mean over a list of rows (`.mean(axis=0)`), each row read
up to `len` entries. -/
def meanRows (len : Nat) (rows : List (List ℚ)) : List ℚ :=
  (List.range len).map fun k =>
    (rows.map fun r => r.getD k 0).sum / ((rows.length : ℚ))

/-- The batch of memory fields computed by
`FeatureMasks._store_extra_fields` for one cluster. -/
structure MaskStats where
  mean_masks : List ℚ
  sum_masks : List ℚ
  n_unmasked_channels : Nat
  main_channels : List Nat
  mean_probe_position : List ℚ

/-- Embeds the per-cluster body of `FeatureMasks._store_extra_fields`:
from the loaded masks of one cluster, compute the column sums and means,
the unmasked-channel count, the main-channel ranking and the weighted mean
probe position (`(positions * mean_masks[:, np.newaxis]).mean(axis=0)`,
with `n_dims` coordinates per channel position). -/
def computeStats (n_channels n_dims : Nat) (positions : Nat → List ℚ)
    (masks : List (List ℚ)) : MaskStats :=
  let sum_masks := colSums n_channels masks
  let mean_masks := colMeans n_channels masks
  let unmasked := unmaskedChannels n_channels masks
  let mean_probe_position := (List.range n_dims).map fun d =>
    ((List.range n_channels).map fun ch =>
      (positions ch).getD d 0 * mean_masks.getD ch 0).sum / ((n_channels : ℚ))
  { mean_masks := mean_masks
    sum_masks := sum_masks
    n_unmasked_channels := unmasked.length
    main_channels := mainChannels n_channels masks
    mean_probe_position := mean_probe_position }

/-- State of the `FeatureMasks` store item: the two per-cluster disk
fields (feature rows kept abstract, mask rows as per-channel rationals),
the per-cluster memory statistics, and a log of the clusters for which the
memory batch was (re)stored, in store order. -/
structure FMState (F : Type) where
  features : Nat → List F
  masks : Nat → List (List ℚ)
  memStats : Nat → Option MaskStats
  memLog : List Nat

/-- Embeds `FeatureMasks._store_extra_fields(clusters)`: for each listed
cluster in order, load its stored masks, compute the statistics batch and
store it as a unit in the memory layer. -/
def FeatureMasks.storeExtraFields {F : Type} (n_channels n_dims : Nat)
    (positions : Nat → List ℚ) (clusters : List Nat) (st : FMState F) :
    FMState F :=
  clusters.foldl
    (fun s cluster =>
      { s with
        memStats := fun c =>
          if c = cluster then
            some (computeStats n_channels n_dims positions (s.masks cluster))
          else s.memStats c
        memLog := s.memLog ++ [cluster] })
    st

/-- Embeds `FeatureMasks.on_cluster(up)`: return unchanged when the update
is absent or replays history; otherwise apply the merge or assign
recombination to both disk fields and then store the statistics batch for
exactly the added clusters. -/
def FeatureMasks.onCluster {F : Type} [Inhabited F] (n_channels n_dims : Nat)
    (positions : Nat → List ℚ) (up : Option ClusterUpdate) (st : FMState F) :
    FMState F :=
  match up with
  | none => st
  | some u =>
    if u.history.isSome then st
    else
      let st1 :=
        if u.description = UpdateKind.merge then
          { st with
            features := FeatureMasks.mergeField u st.features
            masks := FeatureMasks.mergeField u st.masks }
        else if u.description = UpdateKind.assign then
          { st with
            features := FeatureMasks.assignField u st.features
            masks := FeatureMasks.assignField u st.masks }
        else st
      FeatureMasks.storeExtraFields n_channels n_dims positions u.added st1

/-- The part of the external model read by `FeatureMasks` during bulk
generation: the total record count, the per-record cluster assignment
(`model.spike_clusters`), and the per-record extracted feature and mask
rows (the source slices `model.features_masks` per chunk and extracts, per
record, the flat feature block `tmp[:, :nc*nf, 0]` and the mask block
`tmp[:, :nc*nf, 1][:, ::nf]`; the embedding keeps the per-record result of
that fixed extraction). Also carries the model metadata used for the
statistics and the full known cluster set (`self.cluster_ids`). -/
structure GenModel (F : Type) where
  n_spikes : Nat
  spike_clusters : Nat → Nat
  featRow : Nat → F
  maskRow : Nat → List ℚ
  n_channels : Nat
  n_dims : Nat
  positions : Nat → List ℚ
  cluster_ids : List Nat

/-- The record indices of chunk `i` for a given chunk size: the slice
`[i*chunk_size, (i+1)*chunk_size)` of the global record range, clipped at
`n_spikes` (the numpy slices `fm[a:b]` and `spike_clusters[a:b]` clip; the
unclipped tail of `np.arange(a, b)` pairs with no data and is dropped). -/
def chunkSpikes {F : Type} (m : GenModel F) (chunk_size i : Nat) : List Nat :=
  List.range' (i * chunk_size)
    (min ((i + 1) * chunk_size) m.n_spikes - i * chunk_size)

/-- The clusters processed in chunk `i`: the cluster ids present in the
chunk (`_spikes_per_cluster` keys, modelled from the spec as the partition
of the chunk record indices by cluster id) intersected with the
pending-generation set, in ascending order (`sorted(set ∩ set)`). -/
def chunkClusterList {F : Type} (m : GenModel F) (chunk_size : Nat)
    (pending : List Nat) (i : Nat) : List Nat :=
  List.insertionSort (fun a b => a ≤ b)
    (((chunkSpikes m chunk_size i).map m.spike_clusters).dedup.filter
      fun c => decide (c ∈ pending))

/-- Embeds `FeatureMasks._store_cluster` for one chunk: the records of the
chunk belonging to the cluster (located by `_index_of` relative to the
chunk, which for the contiguous chunk range selects exactly those records,
in ascending order) have their extracted feature and mask rows appended to
the cluster disk fields (`disk_store.store(..., append=True)`). -/
def FeatureMasks.storeClusterChunk {F : Type} (m : GenModel F) (cluster : Nat)
    (chunk_spikes : List Nat) (st : FMState F) : FMState F :=
  let cluster_spikes := chunk_spikes.filter fun s =>
    decide (m.spike_clusters s = cluster)
  { st with
    features := fun c =>
      if c = cluster then st.features c ++ cluster_spikes.map m.featRow
      else st.features c
    masks := fun c =>
      if c = cluster then st.masks c ++ cluster_spikes.map m.maskRow
      else st.masks c }

/-- One iteration of the chunk loop of `FeatureMasks.store_all_clusters`:
process the clusters of the chunk that are pending, in ascending order. -/
def FeatureMasks.processChunk {F : Type} (m : GenModel F) (chunk_size : Nat)
    (pending : List Nat) (i : Nat) (st : FMState F) : FMState F :=
  (chunkClusterList m chunk_size pending i).foldl
    (fun s cluster =>
      FeatureMasks.storeClusterChunk m cluster (chunkSpikes m chunk_size i) s)
    st

/-- The chunk loop of `FeatureMasks.store_all_clusters`: `k` chunks remain
and the next chunk index is `i`; an empty chunk slice
(`chunk_features_masks.shape[0] == 0`, i.e. the chunk starts at or past
`n_spikes`) terminates the loop early. -/
def FeatureMasks.chunkLoop {F : Type} (m : GenModel F) (chunk_size : Nat)
    (pending : List Nat) : Nat → Nat → FMState F → FMState F
  | 0, _, st => st
  | k + 1, i, st =>
    if m.n_spikes ≤ i * chunk_size then st
    else
      FeatureMasks.chunkLoop m chunk_size pending k (i + 1)
        (FeatureMasks.processChunk m chunk_size pending i st)

/-- Embeds `FeatureMasks.store_all_clusters`: when the pending-generation
set (the result of `to_generate(mode)`, received here as a parameter) is
non-empty, stream the `n_spikes // chunk_size + 1` chunks through the
chunk loop; in every case, finish by storing the statistics batch for
every cluster of the full known cluster set. -/
def FeatureMasks.store_all_clusters {F : Type} (m : GenModel F)
    (chunk_size : Nat) (pending : List Nat) (st : FMState F) : FMState F :=
  let st1 :=
    if 0 < pending.length then
      FeatureMasks.chunkLoop m chunk_size pending
        (m.n_spikes / chunk_size + 1) 0 st
    else st
  FeatureMasks.storeExtraFields m.n_channels m.n_dims m.positions
    m.cluster_ids st1

/-- The part of the external model read by the `Waveforms` item: the
subsampling selector (`Selector.subset_spikes_clusters`, not under src/,
modelled from the spec as a routine returning a representative
record-index subset for a cluster), the per-record waveform row, and the
flattened row length `n_samples * n_channels`. -/
structure WModel where
  selector : Nat → List Nat
  waveformOf : Nat → List ℚ
  row_len : Nat

/-- State of the `Waveforms` store item: the two per-cluster disk fields
and the per-cluster mean waveform held in memory, plus the memory store
log. -/
structure WState where
  waveforms : Nat → List (List ℚ)
  waveforms_spikes : Nat → List Nat
  mean_waveforms : Nat → Option (List ℚ)
  memLog : List Nat

/-- Embeds `Waveforms.store_cluster`: select a record subset for the
cluster, store the selected waveforms and their record indices on disk
(overwriting), and store the mean waveform in memory. -/
def Waveforms.store_cluster (m : WModel) (cluster : Nat) (st : WState) :
    WState :=
  let spikes := m.selector cluster
  let waveforms := spikes.map m.waveformOf
  { waveforms := fun c =>
      if c = cluster then waveforms else st.waveforms c
    waveforms_spikes := fun c =>
      if c = cluster then spikes else st.waveforms_spikes c
    mean_waveforms := fun c =>
      if c = cluster then some (meanRows m.row_len waveforms)
      else st.mean_waveforms c
    memLog := st.memLog ++ [cluster] }

/-- Embeds `Waveforms.on_cluster(up)`: return unchanged when the update is
absent or replays history; otherwise, for a merge or assign update,
regenerate every added cluster with `store_cluster`. -/
def Waveforms.onCluster (m : WModel) (up : Option ClusterUpdate)
    (st : WState) : WState :=
  match up with
  | none => st
  | some u =>
    if u.history.isSome then st
    else
      if u.description = UpdateKind.merge ∨
          u.description = UpdateKind.assign then
        u.added.foldl (fun s cluster => Waveforms.store_cluster m cluster s) st
      else st

/-!
Shared lemmas about the canonical ascending-record-index ordering.
-/

/-- Two lists of (record index, row) pairs that are permutations of each
other, both sorted by record index, with pairwise distinct record indices,
are equal. -/
lemma eq_of_perm_sorted_of_nodup_keys {α : Type} {L1 L2 : List (Nat × α)}
    (hp : L1.Perm L2) (h1 : L1.Sorted fstLE) (h2 : L2.Sorted fstLE)
    (hnd : (L1.map Prod.fst).Nodup) : L1 = L2 := by
  have hnd2 : (L2.map Prod.fst).Nodup := (hp.map Prod.fst).nodup hnd
  have hne1 : L1.Pairwise fun p q : Nat × α => p.1 ≠ q.1 :=
    List.pairwise_map.mp hnd
  have hne2 : L2.Pairwise fun p q : Nat × α => p.1 ≠ q.1 :=
    List.pairwise_map.mp hnd2
  have hlt1 : L1.Sorted fstLT :=
    (h1.and hne1).imp fun h => lt_of_le_of_ne h.1 h.2
  have hlt2 : L2.Sorted fstLT :=
    (h2.and hne2).imp fun h => lt_of_le_of_ne h.1 h.2
  exact List.eq_of_perm_of_sorted hp hlt1 hlt2

/-- Sorting the contributing clusters first (as the concatenation helper
does) changes nothing when the record indices are pairwise distinct: the
result is the rows interleaved in ascending record-index order. -/
lemma concatenate_eq_interleaved {α : Type} (spc : Nat → List Nat)
    (arrays : Nat → List α) (clusters : List Nat)
    (hnd : ((allClusterPairs spc arrays clusters).map Prod.fst).Nodup) :
    concatenatePerClusterArrays spc arrays clusters =
      interleavedByRecordIndex spc arrays clusters := by
  unfold concatenatePerClusterArrays interleavedByRecordIndex
  have p2 : (allClusterPairs spc arrays
      (List.insertionSort (fun a b => a ≤ b) clusters)).Perm
      (allClusterPairs spc arrays clusters) :=
    List.Perm.flatMap_right _
      (List.perm_insertionSort (fun a b => a ≤ b) clusters)
  have p1 := List.perm_insertionSort fstLE
    (allClusterPairs spc arrays
      (List.insertionSort (fun a b => a ≤ b) clusters))
  have p3 := List.perm_insertionSort fstLE (allClusterPairs spc arrays clusters)
  have hp : (List.insertionSort fstLE
      (allClusterPairs spc arrays
        (List.insertionSort (fun a b => a ≤ b) clusters))).Perm
      (List.insertionSort fstLE (allClusterPairs spc arrays clusters)) :=
    (p1.trans p2).trans p3.symm
  have hnd1 : ((List.insertionSort fstLE
      (allClusterPairs spc arrays
        (List.insertionSort (fun a b => a ≤ b) clusters))).map
          Prod.fst).Nodup := by
    have := ((p1.trans p2).symm.map Prod.fst).nodup hnd
    exact this
  have hs1 := List.sorted_insertionSort fstLE
    (allClusterPairs spc arrays
      (List.insertionSort (fun a b => a ≤ b) clusters))
  have hs2 := List.sorted_insertionSort fstLE
    (allClusterPairs spc arrays clusters)
  rw [eq_of_perm_sorted_of_nodup_keys hp hs1 hs2 hnd1]

/-- C1: for a merge update (exactly one added cluster, at least two
deleted clusters, the record-index sets of the deleted clusters pairwise
disjoint and duplicate free), the array stored for the added cluster under
a disk field is the rows of the deleted clusters, interleaved in ascending
global record-index order over the union of their record-index sets, not
their concatenation. -/
theorem merge_interleaves_by_record_index {α : Type} (up : ClusterUpdate)
    (store : Nat → List α) (n : Nat)
    (hk : up.description = UpdateKind.merge)
    (hadd : up.added = [n]) (hdel : 2 ≤ up.deleted.length)
    (hnd : ((allClusterPairs up.old_spikes_per_cluster store
        up.deleted).map Prod.fst).Nodup) :
    FeatureMasks.mergeField up store n =
      interleavedByRecordIndex up.old_spikes_per_cluster store up.deleted := by
  unfold FeatureMasks.mergeField
  rw [hadd]
  simp only [List.headD_cons, if_pos rfl]
  exact concatenate_eq_interleaved _ _ _ hnd

/-- Concrete merge input of the claim: cluster 10 holds records 1, 3, 5
with rows 11, 13, 15 and cluster 20 holds records 2, 4 with rows 22, 24;
both merge into cluster 30. -/
def exUpMerge : ClusterUpdate where
  description := UpdateKind.merge
  history := none
  deleted := [10, 20]
  added := [30]
  descendants := [(10, 30), (20, 30)]
  old_spikes_per_cluster := fun c =>
    if c = 10 then [1, 3, 5] else if c = 20 then [2, 4] else []
  new_spikes_per_cluster := fun c =>
    if c = 30 then [1, 2, 3, 4, 5] else []

/-- Disk contents of the two clusters merged in the concrete example. -/
def exStoreMerge : Nat → List Nat := fun c =>
  if c = 10 then [11, 13, 15] else if c = 20 then [22, 24] else []

/-- Witness for C1: on the concrete merge the added cluster receives the
interleaving 11, 22, 13, 24, 15, not the concatenation. -/
theorem merge_interleaves_by_record_index_witness :
    FeatureMasks.mergeField exUpMerge exStoreMerge 30 = [11, 22, 13, 24, 15] := by
  have h := merge_interleaves_by_record_index exUpMerge exStoreMerge 30 rfl rfl
    (by decide) (by decide)
  rw [h]
  decide

/-!
Lemmas for the assign recombination.
-/

/-- Pointwise equal functions give equal `flatMap` results. -/
lemma flatMap_congr_mem {α β : Type} {l : List α} {f g : α → List β}
    (h : ∀ a ∈ l, f a = g a) : l.flatMap f = l.flatMap g := by
  induction l with
  | nil => rfl
  | cons a l ih =>
    rw [List.flatMap_cons, List.flatMap_cons, h a (by simp),
      ih fun x hx => h x (List.mem_cons_of_mem a hx)]

/-- Extracting rows at the positions of a filtered record subset (the
`_index_of` then fancy-indexing step of `_assign`) yields exactly the rows
of the filtered (record, row) pairs, provided the stored record list is
duplicate free and matches the array length. -/
lemma extract_positions_eq_filter_zip {α : Type} [Inhabited α]
    (p : Nat → Bool) (spikes : List Nat) (rows : List α)
    (hlen : spikes.length = rows.length) (hnd : spikes.Nodup) :
    (indexOfList (spikes.filter p) spikes).map
        (fun i => rows.getD i default) =
      ((spikes.zip rows).filter fun q => p q.1).map Prod.snd := by
  induction spikes generalizing rows with
  | nil => simp [indexOfList]
  | cons s ss ih =>
    cases rows with
    | nil => simp at hlen
    | cons r rs =>
      have hsmem : s ∉ ss := (List.nodup_cons.mp hnd).1
      have hnd' : ss.Nodup := (List.nodup_cons.mp hnd).2
      have hlen' : ss.length = rs.length := by
        simpa using hlen
      have taileq :
          ((ss.filter p).map fun x => (s :: ss).indexOf x).map
              (fun i => (r :: rs).getD i default) =
            (indexOfList (ss.filter p) ss).map
              (fun i => rs.getD i default) := by
        rw [List.map_map, indexOfList, List.map_map]
        apply List.map_congr_left
        intro x hx
        have hxss : x ∈ ss := (List.mem_filter.mp hx).1
        have hxs : s ≠ x := fun h => hsmem (h ▸ hxss)
        simp only [Function.comp_apply, List.indexOf_cons_ne _ hxs,
          Nat.succ_eq_add_one, List.getD_cons_succ]
      cases hps : p s with
      | true =>
        simp only [indexOfList, List.zip_cons_cons, List.filter_cons, hps,
          if_true, List.map_cons, List.indexOf_cons_self, List.getD_cons_zero]
        rw [taileq, ih rs hlen' hnd']
      | false =>
        simp only [indexOfList, List.zip_cons_cons, List.filter_cons, hps,
          Bool.false_eq_true, if_false]
        rw [taileq, ih rs hlen' hnd']

/-- Re-zipping the filtered record subset with the extracted rows
reconstructs exactly the filtered (record, row) pairs. -/
lemma zip_filter_extract {α : Type} (p : Nat → Bool) (spikes : List Nat)
    (rows : List α) (hlen : spikes.length = rows.length) :
    (spikes.filter p).zip
        (((spikes.zip rows).filter fun q => p q.1).map Prod.snd) =
      (spikes.zip rows).filter fun q => p q.1 := by
  have hfst : ((spikes.zip rows).filter fun q => p q.1).map Prod.fst =
      spikes.filter p := by
    have : ((spikes.zip rows).filter fun q => p q.1).map Prod.fst =
        ((spikes.zip rows).map Prod.fst).filter p := by
      rw [List.filter_map]
      rfl
    rw [this, List.map_fst_zip _ _ (le_of_eq hlen)]
  calc (spikes.filter p).zip
        (((spikes.zip rows).filter fun q => p q.1).map Prod.snd)
      = (((spikes.zip rows).filter fun q => p q.1).map Prod.fst).zip
          (((spikes.zip rows).filter fun q => p q.1).map Prod.snd) := by
        rw [hfst]
    _ = (spikes.zip rows).filter fun q => p q.1 := by
        have hu := List.unzip_eq_map ((spikes.zip rows).filter fun q => p q.1)
        have hz := List.zip_unzip ((spikes.zip rows).filter fun q => p q.1)
        rw [hu] at hz
        exact hz

/-- The pair list underlying `assignOne` equals the claim-side pair list
`specAssignPairs`, under the assign well-formedness hypotheses. -/
lemma assign_pairs_eq {α : Type} [Inhabited α] (up : ClusterUpdate)
    (store : Nat → List α) (new : Nat)
    (hlen : ∀ old ∈ oldClustersFor up new,
      (up.old_spikes_per_cluster old).length = (store old).length)
    (hndold : ∀ old ∈ oldClustersFor up new,
      (up.old_spikes_per_cluster old).Nodup) :
    allClusterPairs
        (fun old => (up.old_spikes_per_cluster old).filter fun s =>
          decide (s ∈ up.new_spikes_per_cluster new))
        (fun old =>
          (indexOfList
              ((up.old_spikes_per_cluster old).filter fun s =>
                decide (s ∈ up.new_spikes_per_cluster new))
              (up.old_spikes_per_cluster old)).map fun i =>
            (store old).getD i default)
        (oldClustersFor up new) =
      FeatureMasks.specAssignPairs up store new := by
  unfold allClusterPairs FeatureMasks.specAssignPairs
  apply flatMap_congr_mem
  intro old hold
  dsimp only
  rw [extract_positions_eq_filter_zip _ _ _ (hlen old hold) (hndold old hold)]
  exact zip_filter_extract _ _ _ (hlen old hold)

/-- The fold of `assignField` stores `assignOne` for every added cluster
and leaves every other cluster untouched. -/
lemma assignField_apply {α : Type} [Inhabited α] (up : ClusterUpdate)
    (store : Nat → List α) (l : List Nat) (st : Nat → List α) (c : Nat) :
    (l.foldl
        (fun st new => fun c => if c = new then
          FeatureMasks.assignOne up store new else st c)
        st) c =
      if c ∈ l then FeatureMasks.assignOne up store c else st c := by
  induction l generalizing st with
  | nil => simp
  | cons a l ih =>
    rw [List.foldl_cons, ih]
    by_cases hcl : c ∈ l
    · simp [hcl, List.mem_cons]
    · by_cases hca : c = a
      · subst hca
        simp [hcl]
      · simp [hcl, hca, List.mem_cons]

/-- C2: for an assign update, each added cluster receives, for a disk
field, exactly the rows of its contributing old clusters (per the
descendant relation) whose record indices belong to the new cluster
record-index set, taken at the positions those records occupy in the old
stored order and recombined in ascending global record-index order. The
hypotheses state the well-formedness the source relies on: stored arrays
match the record lists in length, record lists are duplicate free, and the
records contributed to the new cluster are pairwise distinct. -/
theorem assign_extracts_and_recombines {α : Type} [Inhabited α]
    (up : ClusterUpdate) (store : Nat → List α) (new : Nat)
    (hk : up.description = UpdateKind.assign)
    (hmem : new ∈ up.added)
    (hlen : ∀ old ∈ oldClustersFor up new,
      (up.old_spikes_per_cluster old).length = (store old).length)
    (hndold : ∀ old ∈ oldClustersFor up new,
      (up.old_spikes_per_cluster old).Nodup)
    (hkeys : ((FeatureMasks.specAssignPairs up store new).map
      Prod.fst).Nodup) :
    FeatureMasks.assignField up store new =
      FeatureMasks.specAssignedArray up store new := by
  unfold FeatureMasks.assignField
  rw [assignField_apply, if_pos hmem]
  unfold FeatureMasks.assignOne FeatureMasks.specAssignedArray
  have hpairs := assign_pairs_eq up store new hlen hndold
  rw [concatenate_eq_interleaved]
  · unfold interleavedByRecordIndex
    rw [hpairs]
  · rw [hpairs]
    exact hkeys

/-- Concrete assign input of the claim: cluster 0 holds records 1..5 with
rows 101..105 and is split into cluster 40 (records 1, 2, 3) and cluster
50 (records 4, 5). -/
def exUpAssign : ClusterUpdate where
  description := UpdateKind.assign
  history := none
  deleted := [0]
  added := [40, 50]
  descendants := [(0, 40), (0, 50)]
  old_spikes_per_cluster := fun c =>
    if c = 0 then [1, 2, 3, 4, 5] else []
  new_spikes_per_cluster := fun c =>
    if c = 40 then [1, 2, 3] else if c = 50 then [4, 5] else []

/-- Disk contents of the split cluster in the concrete example. -/
def exStoreAssign : Nat → List Nat := fun c =>
  if c = 0 then [101, 102, 103, 104, 105] else []

/-- Witness for C2: splitting the concrete cluster gives cluster 40 the
first three rows, preserving order. -/
theorem assign_extracts_and_recombines_witness :
    FeatureMasks.assignField exUpAssign exStoreAssign 40 = [101, 102, 103] := by
  have h := assign_extracts_and_recombines exUpAssign exStoreAssign 40 rfl
    (by decide) (by decide) (by decide) (by decide)
  rw [h]
  decide

/-!
Consistency checks (claim C3).
-/

/-- Concrete file-size table refuting the one-byte-corruption part of C3
for the waveforms item: cluster 0 has a 4-byte waveforms file (one record
with one channel and one sample) and a 9-byte waveforms_spikes file, one
byte more than the expected 1 * 8 bytes. -/
def exCorruptFiles : FileSizes := fun c nm =>
  if c = 0 ∧ nm = FieldName.waveforms then some 4
  else if c = 0 ∧ nm = FieldName.waveforms_spikes then some 9
  else none

/-- Counterexample to C3 as stated: for the waveforms store item with one
channel and one sample, the waveforms_spikes file of cluster 0 holds 9
bytes, one byte more than the expected record_count * element_size =
1 * 8 bytes, yet `is_consistent` returns true: the floor divisions
9 / 8 and 4 / 4 both give one record. -/
theorem waveforms_one_byte_corruption_undetected :
    Waveforms.is_consistent 1 1 exCorruptFiles 0 [0] = true ∧
    exCorruptFiles 0 FieldName.waveforms_spikes = some 9 ∧
    (9 : Nat) ≠ 1 * 8 := by
  refine ⟨by decide, by decide, by decide⟩

/-- C3 amended: for the features/masks item, `is_consistent` returns true
exactly when both disk files exist with exactly the expected byte sizes
(so there any one-byte corruption is detected); for the waveforms item,
`is_consistent` only requires both files to exist and their byte sizes to
imply the same record count under floor division (size_spikes / 8 equal to
size_waveforms / (channels * samples * 4)), so a corruption smaller than
one element can go undetected. -/
theorem is_consistent_characterization (n_channels n_features n_samples : Nat)
    (files : FileSizes) (cluster : Nat) (spikes : List Nat) :
    (FeatureMasks.is_consistent n_channels n_features files cluster spikes =
        true ↔
      (files cluster FieldName.masks =
          some (spikes.length * n_channels * 4) ∧
        files cluster FieldName.features =
          some (spikes.length * n_channels * n_features * 4))) ∧
    (Waveforms.is_consistent n_channels n_samples files cluster spikes =
        true ↔
      ∃ w s, files cluster FieldName.waveforms = some w ∧
        files cluster FieldName.waveforms_spikes = some s ∧
        s / 8 = w / (n_channels * n_samples * 4)) := by
  constructor
  · unfold FeatureMasks.is_consistent
    simp only [List.all_cons, List.all_nil, Bool.and_true, Bool.and_eq_true]
    constructor
    · rintro ⟨h1, h2⟩
      cases hm : files cluster FieldName.masks with
      | none => rw [hm] at h1; exact absurd h1 (by simp)
      | some a =>
        cases hf : files cluster FieldName.features with
        | none => rw [hf] at h2; exact absurd h2 (by simp)
        | some b =>
          rw [hm] at h1
          rw [hf] at h2
          simp only [Nat.beq_eq_true_eq] at h1 h2
          exact ⟨by rw [← h1], by rw [← h2]⟩
    · rintro ⟨h1, h2⟩
      rw [h1, h2]
      exact ⟨by simp, by simp⟩
  · unfold Waveforms.is_consistent
    cases hw : files cluster FieldName.waveforms with
    | none =>
      simp only [hw]
      constructor
      · intro h
        exact absurd h (by simp)
      · rintro ⟨w, s, hw2, _, _⟩
        exact absurd hw2 (by simp [hw])
    | some w =>
      cases hs : files cluster FieldName.waveforms_spikes with
      | none =>
        simp only [hw, hs]
        constructor
        · intro h
          exact absurd h (by simp)
        · rintro ⟨w2, s2, _, hs2, _⟩
          exact absurd hs2 (by simp [hs])
      | some s =>
        simp only [hw, hs, Nat.beq_eq_true_eq]
        constructor
        · intro h
          exact ⟨w, s, rfl, rfl, h⟩
        · rintro ⟨w2, s2, hw2, hs2, h⟩
          cases hw2
          cases hs2
          exact h

/-!
History-replay no-op (claim C4).
-/

/-- C4: an `on_cluster` call whose update is absent or carries a history
marker (an undo or redo replay) leaves the complete state of both store
items unchanged: no disk field and no memory field of the features/masks
item or the waveforms item is touched. -/
theorem on_cluster_replay_noop {F : Type} [Inhabited F]
    (n_channels n_dims : Nat) (positions : Nat → List ℚ)
    (up : Option ClusterUpdate) (st : FMState F) (wm : WModel) (wst : WState)
    (h : up = none ∨ ∃ u, up = some u ∧ u.history ≠ none) :
    FeatureMasks.onCluster n_channels n_dims positions up st = st ∧
      Waveforms.onCluster wm up wst = wst := by
  rcases h with h | ⟨u, hup, hh⟩
  · subst h
    exact ⟨rfl, rfl⟩
  · subst hup
    have hsome : u.history.isSome = true := Option.ne_none_iff_isSome.mp hh
    constructor
    · simp only [FeatureMasks.onCluster, hsome, if_true]
    · simp only [Waveforms.onCluster, hsome, if_true]

/-- Concrete undo replay of a merge, used by the C4 witness. -/
def exUpReplay : ClusterUpdate where
  description := UpdateKind.merge
  history := some HistoryMark.undo
  deleted := [10, 20]
  added := [30]
  descendants := [(10, 30), (20, 30)]
  old_spikes_per_cluster := fun c =>
    if c = 10 then [1, 3, 5] else if c = 20 then [2, 4] else []
  new_spikes_per_cluster := fun c =>
    if c = 30 then [1, 2, 3, 4, 5] else []

/-- Concrete features/masks state used by the C4 witness. -/
def exFMState : FMState Nat where
  features := fun c => if c = 10 then [11, 13, 15] else []
  masks := fun c => if c = 10 then [[1, 0], [0, 1], [1, 1]] else []
  memStats := fun _ => none
  memLog := []

/-- Concrete waveforms model and state used by the C4 witness. -/
def exWModel : WModel where
  selector := fun _ => [0]
  waveformOf := fun _ => [1, 2]
  row_len := 2

/-- Concrete waveforms state used by the C4 witness. -/
def exWState : WState where
  waveforms := fun _ => []
  waveforms_spikes := fun _ => []
  mean_waveforms := fun _ => none
  memLog := []

/-- Witness for C4: the concrete undo replay leaves both concrete states
unchanged. -/
theorem on_cluster_replay_noop_witness :
    FeatureMasks.onCluster 2 0 (fun _ => []) (some exUpReplay) exFMState =
        exFMState ∧
      Waveforms.onCluster exWModel (some exUpReplay) exWState = exWState :=
  on_cluster_replay_noop 2 0 (fun _ => []) (some exUpReplay) exFMState
    exWModel exWState
    (Or.inr ⟨exUpReplay, rfl, by decide⟩)

/-!
Lemmas about chunked bulk generation (claims C5, C6, C7).
-/

/-- The chunk-store fold never touches the memory layer. -/
lemma foldStoreChunk_mem {F : Type} (m : GenModel F) (chunk : List Nat)
    (cl : List Nat) (st : FMState F) :
    ((cl.foldl
        (fun s cluster => FeatureMasks.storeClusterChunk m cluster chunk s)
        st).memStats = st.memStats ∧
      (cl.foldl
        (fun s cluster => FeatureMasks.storeClusterChunk m cluster chunk s)
        st).memLog = st.memLog) := by
  induction cl generalizing st with
  | nil => exact ⟨rfl, rfl⟩
  | cons x xs ih =>
    rw [List.foldl_cons]
    exact ih (FeatureMasks.storeClusterChunk m x chunk st)

/-- Folding the chunk store over a duplicate-free cluster list appends,
for each listed cluster, exactly the rows of the chunk records assigned to
it, and leaves every other cluster untouched. -/
lemma foldStoreChunk_disk {F : Type} (m : GenModel F) (chunk : List Nat)
    (cl : List Nat) (hnd : cl.Nodup) (st : FMState F) (c : Nat) :
    ((cl.foldl
        (fun s cluster => FeatureMasks.storeClusterChunk m cluster chunk s)
        st).features c =
      (if c ∈ cl then
        st.features c ++
          (chunk.filter fun s => decide (m.spike_clusters s = c)).map m.featRow
      else st.features c)) ∧
    ((cl.foldl
        (fun s cluster => FeatureMasks.storeClusterChunk m cluster chunk s)
        st).masks c =
      (if c ∈ cl then
        st.masks c ++
          (chunk.filter fun s => decide (m.spike_clusters s = c)).map m.maskRow
      else st.masks c)) := by
  induction cl generalizing st with
  | nil => simp
  | cons x xs ih =>
    have hxxs : x ∉ xs := (List.nodup_cons.mp hnd).1
    have hnd' : xs.Nodup := (List.nodup_cons.mp hnd).2
    rw [List.foldl_cons]
    have ih' := ih hnd' (FeatureMasks.storeClusterChunk m x chunk st)
    by_cases hcx : c = x
    · subst hcx
      have hcxs : c ∉ xs := hxxs
      rw [ih'.1, ih'.2] at *
      simp [hcxs, FeatureMasks.storeClusterChunk]
    · by_cases hcxs : c ∈ xs
      · rw [ih'.1, ih'.2]
        simp [hcxs, FeatureMasks.storeClusterChunk, hcx, List.mem_cons]
      · rw [ih'.1, ih'.2]
        have : c ∉ x :: xs := by
          simp [List.mem_cons, hcx, hcxs]
        simp [hcxs, this, FeatureMasks.storeClusterChunk, hcx]

/-- Membership in the per-chunk processed cluster list: exactly the
clusters present in the chunk that are pending. -/
lemma mem_chunkClusterList {F : Type} (m : GenModel F) (chunk_size : Nat)
    (pending : List Nat) (i c : Nat) :
    c ∈ chunkClusterList m chunk_size pending i ↔
      ((∃ s ∈ chunkSpikes m chunk_size i, m.spike_clusters s = c) ∧
        c ∈ pending) := by
  unfold chunkClusterList
  rw [(List.perm_insertionSort (fun a b => a ≤ b) _).mem_iff]
  simp [List.mem_filter, List.mem_dedup, List.mem_map]

/-- The per-chunk processed cluster list is duplicate free. -/
lemma nodup_chunkClusterList {F : Type} (m : GenModel F) (chunk_size : Nat)
    (pending : List Nat) (i : Nat) :
    (chunkClusterList m chunk_size pending i).Nodup := by
  unfold chunkClusterList
  exact (List.perm_insertionSort (fun a b => a ≤ b) _).symm.nodup
    ((List.nodup_dedup _).filter _)

/-- The per-chunk processed cluster list is in ascending cluster-id
order. -/
lemma sorted_chunkClusterList {F : Type} (m : GenModel F) (chunk_size : Nat)
    (pending : List Nat) (i : Nat) :
    (chunkClusterList m chunk_size pending i).Sorted (fun a b => a ≤ b) :=
  List.sorted_insertionSort (fun a b => a ≤ b) _

/-- Processing one chunk appends, to every pending cluster, the rows of
the chunk records assigned to it (nothing when the cluster is absent from
the chunk), and touches no other cluster and no memory field. -/
lemma processChunk_spec {F : Type} (m : GenModel F) (chunk_size : Nat)
    (pending : List Nat) (i : Nat) (st : FMState F) (c : Nat) :
    ((FeatureMasks.processChunk m chunk_size pending i st).features c =
      st.features c ++
        (if c ∈ pending then
          ((chunkSpikes m chunk_size i).filter fun s =>
            decide (m.spike_clusters s = c)).map m.featRow
        else [])) ∧
    ((FeatureMasks.processChunk m chunk_size pending i st).masks c =
      st.masks c ++
        (if c ∈ pending then
          ((chunkSpikes m chunk_size i).filter fun s =>
            decide (m.spike_clusters s = c)).map m.maskRow
        else [])) ∧
    (FeatureMasks.processChunk m chunk_size pending i st).memStats =
      st.memStats ∧
    (FeatureMasks.processChunk m chunk_size pending i st).memLog =
      st.memLog := by
  unfold FeatureMasks.processChunk
  have hdisk := foldStoreChunk_disk m (chunkSpikes m chunk_size i)
    (chunkClusterList m chunk_size pending i)
    (nodup_chunkClusterList m chunk_size pending i) st c
  have hmem := foldStoreChunk_mem m (chunkSpikes m chunk_size i)
    (chunkClusterList m chunk_size pending i) st
  refine ⟨?_, ?_, hmem.1, hmem.2⟩
  · rw [hdisk.1]
    by_cases hc : c ∈ chunkClusterList m chunk_size pending i
    · have hc2 := (mem_chunkClusterList m chunk_size pending i c).mp hc
      rw [if_pos hc, if_pos hc2.2]
    · rw [if_neg hc]
      by_cases hp : c ∈ pending
      · have hnone : ¬∃ s ∈ chunkSpikes m chunk_size i,
            m.spike_clusters s = c := by
          intro hex
          exact hc ((mem_chunkClusterList m chunk_size pending i c).mpr
            ⟨hex, hp⟩)
        have hfil : (chunkSpikes m chunk_size i).filter
            (fun s => decide (m.spike_clusters s = c)) = [] := by
          rw [List.filter_eq_nil_iff]
          intro s hs
          simp only [decide_eq_true_eq]
          intro heq
          exact hnone ⟨s, hs, heq⟩
        rw [if_pos hp, hfil]
        simp
      · rw [if_neg hp]
        simp
  · rw [hdisk.2]
    by_cases hc : c ∈ chunkClusterList m chunk_size pending i
    · have hc2 := (mem_chunkClusterList m chunk_size pending i c).mp hc
      rw [if_pos hc, if_pos hc2.2]
    · rw [if_neg hc]
      by_cases hp : c ∈ pending
      · have hnone : ¬∃ s ∈ chunkSpikes m chunk_size i,
            m.spike_clusters s = c := by
          intro hex
          exact hc ((mem_chunkClusterList m chunk_size pending i c).mpr
            ⟨hex, hp⟩)
        have hfil : (chunkSpikes m chunk_size i).filter
            (fun s => decide (m.spike_clusters s = c)) = [] := by
          rw [List.filter_eq_nil_iff]
          intro s hs
          simp only [decide_eq_true_eq]
          intro heq
          exact hnone ⟨s, hs, heq⟩
        rw [if_pos hp, hfil]
        simp
      · rw [if_neg hp]
        simp

/-- Gluing two adjacent record-index ranges. -/
lemma range'_glue {a b c : Nat} (hab : a ≤ b) (hbc : b ≤ c) :
    List.range' a (b - a) ++ List.range' b (c - b) = List.range' a (c - a) := by
  have h := List.range'_append a (b - a) (c - b) 1
  rw [show a + 1 * (b - a) = b by omega] at h
  rw [h, show c - b + (b - a) = c - a by omega]

/-- The chunk loop started at chunk `i` with `k` chunks to go appends, to
every pending cluster, the rows of the records in the index range
`[i * chunk_size, min ((i+k) * chunk_size) n_spikes)` assigned to that
cluster, in ascending record order; other clusters and the memory layer
are untouched. -/
lemma chunkLoop_spec {F : Type} (m : GenModel F) (chunk_size : Nat)
    (pending : List Nat) (hcs : 0 < chunk_size) :
    ∀ (k i : Nat) (st : FMState F) (c : Nat),
      ((FeatureMasks.chunkLoop m chunk_size pending k i st).features c =
        st.features c ++
          (if c ∈ pending then
            ((List.range' (i * chunk_size)
                (min ((i + k) * chunk_size) m.n_spikes -
                  i * chunk_size)).filter fun s =>
              decide (m.spike_clusters s = c)).map m.featRow
          else [])) ∧
      ((FeatureMasks.chunkLoop m chunk_size pending k i st).masks c =
        st.masks c ++
          (if c ∈ pending then
            ((List.range' (i * chunk_size)
                (min ((i + k) * chunk_size) m.n_spikes -
                  i * chunk_size)).filter fun s =>
              decide (m.spike_clusters s = c)).map m.maskRow
          else [])) ∧
      (FeatureMasks.chunkLoop m chunk_size pending k i st).memStats =
        st.memStats ∧
      (FeatureMasks.chunkLoop m chunk_size pending k i st).memLog =
        st.memLog := by
  intro k
  induction k with
  | zero =>
    intro i st c
    have hlen : min ((i + 0) * chunk_size) m.n_spikes - i * chunk_size = 0 := by
      rw [Nat.add_zero]
      omega
    rw [FeatureMasks.chunkLoop, hlen]
    refine ⟨?_, ?_, rfl, rfl⟩ <;>
      by_cases hp : c ∈ pending <;> simp [hp]
  | succ k ih =>
    intro i st c
    rw [FeatureMasks.chunkLoop]
    by_cases hstop : m.n_spikes ≤ i * chunk_size
    · rw [if_pos hstop]
      have hlen : min ((i + (k + 1)) * chunk_size) m.n_spikes -
          i * chunk_size = 0 := by
        have : (i + (k + 1)) * chunk_size = i * chunk_size +
            (k + 1) * chunk_size := by ring
        omega
      rw [hlen]
      refine ⟨?_, ?_, rfl, rfl⟩ <;>
        by_cases hp : c ∈ pending <;> simp [hp]
    · rw [if_neg hstop]
      have hproc := processChunk_spec m chunk_size pending i st c
      have hrest := ih (i + 1)
        (FeatureMasks.processChunk m chunk_size pending i st) c
      have hglue :
          chunkSpikes m chunk_size i ++
            List.range' ((i + 1) * chunk_size)
              (min ((i + 1 + k) * chunk_size) m.n_spikes -
                (i + 1) * chunk_size) =
          List.range' (i * chunk_size)
            (min ((i + (k + 1)) * chunk_size) m.n_spikes -
              i * chunk_size) := by
        unfold chunkSpikes
        by_cases hfits : (i + 1) * chunk_size ≤ m.n_spikes
        · have hmin1 : min ((i + 1) * chunk_size) m.n_spikes =
              (i + 1) * chunk_size := by omega
          rw [hmin1]
          have e1 : (i + 1) * chunk_size = i * chunk_size + chunk_size := by
            ring
          have e2 : (i + 1 + k) * chunk_size =
              i * chunk_size + chunk_size + k * chunk_size := by ring
          have e3 : (i + (k + 1)) * chunk_size =
              i * chunk_size + chunk_size + k * chunk_size := by ring
          have hab : i * chunk_size ≤ (i + 1) * chunk_size := by omega
          have hbc : (i + 1) * chunk_size ≤
              min ((i + 1 + k) * chunk_size) m.n_spikes := by
            omega
          rw [range'_glue hab hbc, e2, e3]
        · have hmin1 : min ((i + 1) * chunk_size) m.n_spikes =
              m.n_spikes := by omega
          have hrest0 : min ((i + 1 + k) * chunk_size) m.n_spikes -
              (i + 1) * chunk_size = 0 := by
            have : (i + 1 + k) * chunk_size =
                (i + 1) * chunk_size + k * chunk_size := by ring
            omega
          have htot : min ((i + (k + 1)) * chunk_size) m.n_spikes =
              m.n_spikes := by
            have e1 : (i + 1) * chunk_size = i * chunk_size + chunk_size := by
              ring
            have e3 : (i + (k + 1)) * chunk_size =
                i * chunk_size + chunk_size + k * chunk_size := by ring
            omega
          rw [hmin1, hrest0, htot]
          simp
      refine ⟨?_, ?_, ?_, ?_⟩
      · rw [hrest.1, hproc.1, List.append_assoc]
        by_cases hp : c ∈ pending
        · rw [if_pos hp, if_pos hp, if_pos hp, ← List.map_append,
            ← List.filter_append, hglue]
        · rw [if_neg hp, if_neg hp, if_neg hp]
          simp
      · rw [hrest.2.1, hproc.2.1, List.append_assoc]
        by_cases hp : c ∈ pending
        · rw [if_pos hp, if_pos hp, if_pos hp, ← List.map_append,
            ← List.filter_append, hglue]
        · rw [if_neg hp, if_neg hp, if_neg hp]
          simp
      · rw [hrest.2.2.1, hproc.2.2.1]
      · rw [hrest.2.2.2, hproc.2.2.2]

/-- Deriving the statistics never touches the disk fields. -/
lemma storeExtraFields_disk {F : Type} (n_channels n_dims : Nat)
    (positions : Nat → List ℚ) (clusters : List Nat) (st : FMState F) :
    (FeatureMasks.storeExtraFields n_channels n_dims positions clusters
        st).features = st.features ∧
      (FeatureMasks.storeExtraFields n_channels n_dims positions clusters
        st).masks = st.masks := by
  induction clusters generalizing st with
  | nil => exact ⟨rfl, rfl⟩
  | cons x xs ih =>
    unfold FeatureMasks.storeExtraFields
    rw [List.foldl_cons]
    exact ih _

/-- Deriving the statistics for a cluster list logs exactly that list, in
order, after the previous log. -/
lemma storeExtraFields_memLog {F : Type} (n_channels n_dims : Nat)
    (positions : Nat → List ℚ) (clusters : List Nat) (st : FMState F) :
    (FeatureMasks.storeExtraFields n_channels n_dims positions clusters
      st).memLog = st.memLog ++ clusters := by
  induction clusters generalizing st with
  | nil => simp [FeatureMasks.storeExtraFields]
  | cons x xs ih =>
    unfold FeatureMasks.storeExtraFields
    unfold FeatureMasks.storeExtraFields at ih
    rw [List.foldl_cons, ih]
    simp

/-- Deriving the statistics for a cluster list does not modify the memory
entry of any cluster outside the list. -/
lemma storeExtraFields_memStats_notmem {F : Type} (n_channels n_dims : Nat)
    (positions : Nat → List ℚ) (clusters : List Nat) (st : FMState F)
    (c : Nat) (hc : c ∉ clusters) :
    (FeatureMasks.storeExtraFields n_channels n_dims positions clusters
      st).memStats c = st.memStats c := by
  induction clusters generalizing st with
  | nil => rfl
  | cons x xs ih =>
    have hcx : c ≠ x := fun h => hc (h ▸ List.mem_cons_self x xs)
    have hcxs : c ∉ xs := fun h => hc (List.mem_cons_of_mem x h)
    unfold FeatureMasks.storeExtraFields
    unfold FeatureMasks.storeExtraFields at ih
    rw [List.foldl_cons, ih _ hcxs]
    simp [hcx]

/-- Full characterization of the disk effect of `store_all_clusters`: each
pending cluster ends with its previous content extended by the rows of all
its records in ascending global record-index order; every other cluster is
untouched. -/
lemma store_all_clusters_disk_spec {F : Type} (m : GenModel F)
    (chunk_size : Nat) (pending : List Nat) (st : FMState F)
    (hcs : 0 < chunk_size) (c : Nat) :
    ((FeatureMasks.store_all_clusters m chunk_size pending st).features c =
      st.features c ++
        (if c ∈ pending then
          ((List.range' 0 m.n_spikes).filter fun s =>
            decide (m.spike_clusters s = c)).map m.featRow
        else [])) ∧
    ((FeatureMasks.store_all_clusters m chunk_size pending st).masks c =
      st.masks c ++
        (if c ∈ pending then
          ((List.range' 0 m.n_spikes).filter fun s =>
            decide (m.spike_clusters s = c)).map m.maskRow
        else [])) := by
  unfold FeatureMasks.store_all_clusters
  dsimp only
  by_cases hpend : 0 < pending.length
  · rw [if_pos hpend]
    have hdisk := storeExtraFields_disk m.n_channels m.n_dims m.positions
      m.cluster_ids
      (FeatureMasks.chunkLoop m chunk_size pending
        (m.n_spikes / chunk_size + 1) 0 st)
    have hloop := chunkLoop_spec m chunk_size pending hcs
      (m.n_spikes / chunk_size + 1) 0 st c
    have hcover : min ((0 + (m.n_spikes / chunk_size + 1)) * chunk_size)
        m.n_spikes - 0 * chunk_size = m.n_spikes := by
      have hlt : m.n_spikes < (m.n_spikes / chunk_size + 1) * chunk_size :=
        (Nat.div_lt_iff_lt_mul hcs).mp (Nat.lt_succ_self _)
      have : (0 + (m.n_spikes / chunk_size + 1)) * chunk_size =
          (m.n_spikes / chunk_size + 1) * chunk_size := by ring
      omega
    rw [hcover] at hloop
    simp only [Nat.zero_mul] at hloop
    constructor
    · rw [hdisk.1, hloop.1]
    · rw [hdisk.2, hloop.2.1]
  · rw [if_neg hpend]
    have hdisk := storeExtraFields_disk m.n_channels m.n_dims m.positions
      m.cluster_ids st
    have hnil : pending = [] := by
      cases pending with
      | nil => rfl
      | cons a l => exact absurd (Nat.succ_pos _) hpend
    subst hnil
    constructor
    · rw [hdisk.1]
      simp
    · rw [hdisk.2]
      simp

/-- The chunk loop never touches the memory layer, for any chunk size. -/
lemma chunkLoop_mem {F : Type} (m : GenModel F) (chunk_size : Nat)
    (pending : List Nat) :
    ∀ (k i : Nat) (st : FMState F),
      (FeatureMasks.chunkLoop m chunk_size pending k i st).memStats =
          st.memStats ∧
        (FeatureMasks.chunkLoop m chunk_size pending k i st).memLog =
          st.memLog := by
  intro k
  induction k with
  | zero => intro i st; exact ⟨rfl, rfl⟩
  | succ k ih =>
    intro i st
    rw [FeatureMasks.chunkLoop]
    by_cases hstop : m.n_spikes ≤ i * chunk_size
    · rw [if_pos hstop]
      exact ⟨rfl, rfl⟩
    · rw [if_neg hstop]
      have hproc := processChunk_spec m chunk_size pending i st 0
      have hrest := ih (i + 1)
        (FeatureMasks.processChunk m chunk_size pending i st)
      exact ⟨hrest.1.trans hproc.2.2.1, hrest.2.trans hproc.2.2.2⟩

/-- C5: bulk generation is independent of the chunk size: for any two
positive chunk sizes, `store_all_clusters` produces identical per-cluster
contents for both disk fields, for every cluster; in particular a cluster
whose records span a chunk boundary gets the same file as in a
single-chunk run. -/
theorem store_all_clusters_chunk_size_invariant {F : Type} (m : GenModel F)
    (cs1 cs2 : Nat) (pending : List Nat) (st : FMState F)
    (h1 : 0 < cs1) (h2 : 0 < cs2) (c : Nat) :
    (FeatureMasks.store_all_clusters m cs1 pending st).features c =
        (FeatureMasks.store_all_clusters m cs2 pending st).features c ∧
      (FeatureMasks.store_all_clusters m cs1 pending st).masks c =
        (FeatureMasks.store_all_clusters m cs2 pending st).masks c := by
  have a1 := store_all_clusters_disk_spec m cs1 pending st h1 c
  have a2 := store_all_clusters_disk_spec m cs2 pending st h2 c
  exact ⟨a1.1.trans a2.1.symm, a1.2.trans a2.2.symm⟩

/-- Concrete generation model for the C5 and C6 witnesses: four records,
records 0 and 1 in cluster 5, records 2 and 3 in cluster 7; with chunk
size 3, cluster 7 spans the boundary between the two chunks. -/
def exGenModel : GenModel Nat where
  n_spikes := 4
  spike_clusters := fun s => if s < 2 then 5 else 7
  featRow := fun s => 100 + s
  maskRow := fun s => [(s : ℚ)]
  n_channels := 1
  n_dims := 0
  positions := fun _ => []
  cluster_ids := [5, 7]

/-- Empty initial features/masks state for the C5 and C6 witnesses. -/
def exFMState0 : FMState Nat where
  features := fun _ => []
  masks := fun _ => []
  memStats := fun _ => none
  memLog := []

/-- Witness for C5: generating with chunk size 3 (cluster 7 spans the
chunk boundary) and with chunk size 10 (a single chunk) gives the same
disk contents for cluster 7. -/
theorem store_all_clusters_chunk_size_invariant_witness :
    (FeatureMasks.store_all_clusters exGenModel 3 [5, 7] exFMState0).features
          7 =
        (FeatureMasks.store_all_clusters exGenModel 10 [5, 7]
          exFMState0).features 7 ∧
      (FeatureMasks.store_all_clusters exGenModel 3 [5, 7] exFMState0).masks
          7 =
        (FeatureMasks.store_all_clusters exGenModel 10 [5, 7]
          exFMState0).masks 7 :=
  store_all_clusters_chunk_size_invariant exGenModel 3 10 [5, 7] exFMState0
    (by decide) (by decide) 7

/-- C7: the clusters written in chunk `i` are exactly the cluster ids
present in the chunk intersected with the pending-generation set, and the
chunk processes them by folding over that list, which is duplicate free
and in ascending cluster-id order. -/
theorem chunk_processes_sorted_intersection {F : Type} (m : GenModel F)
    (chunk_size : Nat) (pending : List Nat) (i : Nat) (st : FMState F) :
    (∀ c, c ∈ chunkClusterList m chunk_size pending i ↔
        ((∃ s ∈ chunkSpikes m chunk_size i, m.spike_clusters s = c) ∧
          c ∈ pending)) ∧
      (chunkClusterList m chunk_size pending i).Sorted (fun a b => a ≤ b) ∧
      (chunkClusterList m chunk_size pending i).Nodup ∧
      FeatureMasks.processChunk m chunk_size pending i st =
        (chunkClusterList m chunk_size pending i).foldl
          (fun s cluster =>
            FeatureMasks.storeClusterChunk m cluster
              (chunkSpikes m chunk_size i) s) st :=
  ⟨fun c => mem_chunkClusterList m chunk_size pending i c,
    sorted_chunkClusterList m chunk_size pending i,
    nodup_chunkClusterList m chunk_size pending i, rfl⟩

/-- C6: a completed `store_all_clusters` call derives the memory
statistics for every cluster of the full known cluster set, even when the
pending set is empty (in which case no disk field changes at all), whereas
a genuine (non-replay) merge or assign `on_cluster` call derives them for
exactly the added clusters and changes no other cluster memory entry. -/
theorem statistics_derivation_coverage {F : Type} [Inhabited F]
    (m : GenModel F) (chunk_size : Nat) (pending : List Nat)
    (st st2 : FMState F) (u : ClusterUpdate)
    (hgen : u.history = none)
    (hdesc : u.description = UpdateKind.merge ∨
      u.description = UpdateKind.assign) :
    ((FeatureMasks.store_all_clusters m chunk_size pending st).memLog =
        st.memLog ++ m.cluster_ids) ∧
      (pending = [] → ∀ c,
        (FeatureMasks.store_all_clusters m chunk_size pending st).features c =
            st.features c ∧
          (FeatureMasks.store_all_clusters m chunk_size pending st).masks c =
            st.masks c) ∧
      ((FeatureMasks.onCluster m.n_channels m.n_dims m.positions (some u)
          st2).memLog = st2.memLog ++ u.added) ∧
      (∀ c, c ∉ u.added →
        (FeatureMasks.onCluster m.n_channels m.n_dims m.positions (some u)
          st2).memStats c = st2.memStats c) := by
  have hh : u.history.isSome = false := by rw [hgen]; rfl
  refine ⟨?_, ?_, ?_, ?_⟩
  · unfold FeatureMasks.store_all_clusters
    dsimp only
    by_cases hpend : 0 < pending.length
    · rw [if_pos hpend, storeExtraFields_memLog,
        (chunkLoop_mem m chunk_size pending _ _ st).2]
    · rw [if_neg hpend, storeExtraFields_memLog]
  · intro hnil c
    subst hnil
    unfold FeatureMasks.store_all_clusters
    dsimp only
    rw [if_neg (by simp)]
    have hdisk := storeExtraFields_disk m.n_channels m.n_dims m.positions
      m.cluster_ids st
    exact ⟨congrFun hdisk.1 c, congrFun hdisk.2 c⟩
  · simp only [FeatureMasks.onCluster, hh, Bool.false_eq_true, if_false]
    rw [storeExtraFields_memLog]
    rcases hdesc with hd | hd
    · rw [if_pos hd]
    · rw [if_neg (by rw [hd]; intro h; cases h), if_pos hd]
  · intro c hc
    simp only [FeatureMasks.onCluster, hh, Bool.false_eq_true, if_false]
    rw [storeExtraFields_memStats_notmem _ _ _ _ _ _ hc]
    rcases hdesc with hd | hd
    · rw [if_pos hd]
    · rw [if_neg (by rw [hd]; intro h; cases h), if_pos hd]

/-- Witness for C6: applying the theorem to the concrete model with an
empty pending set and the concrete genuine merge update. -/
theorem statistics_derivation_coverage_witness :
    ((FeatureMasks.store_all_clusters exGenModel 2 [] exFMState0).memLog =
        exFMState0.memLog ++ exGenModel.cluster_ids) ∧
      (([] : List Nat) = [] → ∀ c,
        (FeatureMasks.store_all_clusters exGenModel 2 [] exFMState0).features
              c =
            exFMState0.features c ∧
          (FeatureMasks.store_all_clusters exGenModel 2 [] exFMState0).masks
              c =
            exFMState0.masks c) ∧
      ((FeatureMasks.onCluster exGenModel.n_channels exGenModel.n_dims
          exGenModel.positions (some exUpMerge) exFMState0).memLog =
        exFMState0.memLog ++ exUpMerge.added) ∧
      (∀ c, c ∉ exUpMerge.added →
        (FeatureMasks.onCluster exGenModel.n_channels exGenModel.n_dims
          exGenModel.positions (some exUpMerge) exFMState0).memStats c =
          exFMState0.memStats c) :=
  statistics_derivation_coverage exGenModel 2 [] exFMState0 exFMState0
    exUpMerge rfl (Or.inl rfl)

/-!
Mask statistics (claims C8, C9, C10).
-/

/-- C8: a channel is unmasked exactly when its mean mask strictly exceeds
the 0.1 cutoff; on the concrete masks with column means 1/20, 1/2, 9/10
the unmasked count is 2 and column 0 is excluded. -/
theorem unmasked_channel_threshold :
    (∀ (n_channels : Nat) (masks : List (List ℚ)) (j : Nat),
        j ∈ unmaskedChannels n_channels masks ↔
          (j < n_channels ∧
            (1 : ℚ)/10 < (colMeans n_channels masks).getD j 0)) ∧
      (computeStats 3 0 (fun _ => [])
          [[1/20, 1/2, 9/10]]).n_unmasked_channels = 2 ∧
      0 ∉ unmaskedChannels 3 [[1/20, 1/2, 9/10]] ∧
      unmaskedChannels 3 [[1/20, 1/2, 9/10]] = [1, 2] := by
  have hex : unmaskedChannels 3 [[1/20, 1/2, 9/10]] = [1, 2] := by
    norm_num [unmaskedChannels, colMeans, colSums, List.range_succ,
      List.filter_append, List.filter_cons, List.filter_nil]
  refine ⟨?_, ?_, ?_, hex⟩
  · intro n_channels masks j
    unfold unmaskedChannels
    simp [List.mem_filter, List.mem_range]
  · show (unmaskedChannels 3 [[1/20, 1/2, 9/10]]).length = 2
    rw [hex]
    rfl
  · rw [hex]
    decide

/-- C9: `main_channels` is computed sort-then-filter, and the result is
exactly the unmasked channels (as a permutation of the unmasked-channel
list) in descending order of mean mask value. -/
theorem main_channels_descending_unmasked (n_channels : Nat)
    (masks : List (List ℚ)) :
    (mainChannels n_channels masks).Perm
        (unmaskedChannels n_channels masks) ∧
      (mainChannels n_channels masks).Pairwise
        (fun i j => (colMeans n_channels masks).getD j 0 ≤
          (colMeans n_channels masks).getD i 0) := by
  have hfeq : ∀ c ∈ List.range n_channels,
      (decide (c ∈ unmaskedChannels n_channels masks)) =
        (decide ((1 : ℚ)/10 < (colMeans n_channels masks).getD c 0)) := by
    intro c hc
    apply decide_eq_decide.mpr
    unfold unmaskedChannels
    simp [List.mem_filter, hc]
  constructor
  · unfold mainChannels
    have h1 : (((List.insertionSort (meanLE (colMeans n_channels masks))
        (List.range n_channels)).reverse).filter fun c =>
          decide (c ∈ unmaskedChannels n_channels masks)).Perm
        ((List.range n_channels).filter fun c =>
          decide (c ∈ unmaskedChannels n_channels masks)) :=
      List.Perm.filter _ ((List.reverse_perm _).trans
        (List.perm_insertionSort _ _))
    have h2 : ((List.range n_channels).filter fun c =>
        decide (c ∈ unmaskedChannels n_channels masks)) =
        unmaskedChannels n_channels masks := by
      rw [List.filter_congr hfeq]
      rfl
    have h3 : ((List.range n_channels).filter fun c =>
        decide (c ∈ unmaskedChannels n_channels masks)).Perm
        (unmaskedChannels n_channels masks) := by
      rw [h2]
    exact h1.trans h3
  · have hs := List.sorted_insertionSort (meanLE (colMeans n_channels masks))
      (List.range n_channels)
    have hrev : ((List.insertionSort (meanLE (colMeans n_channels masks))
        (List.range n_channels)).reverse).Pairwise
        (fun a b => meanLE (colMeans n_channels masks) b a) :=
      List.pairwise_reverse.mpr hs
    have hfil := hrev.sublist
      (@List.filter_sublist Nat
        (fun c => decide (c ∈ unmaskedChannels n_channels masks))
        ((List.insertionSort (meanLE (colMeans n_channels masks))
          (List.range n_channels)).reverse))
    exact hfil.imp fun h => h

/-- C10: the statistics divisor is the number of stored mask rows; for a
cluster with at least one stored record it is non-zero and the per-column
means are the well-defined quotients of the column sums (the empty case
would divide by zero). -/
theorem mean_masks_divisor (n_channels : Nat) (masks : List (List ℚ))
    (h : masks ≠ []) :
    ((masks.length : ℚ) ≠ 0) ∧
      ∀ j, (colMeans n_channels masks).getD j 0 * ((masks.length : ℚ)) =
        (colSums n_channels masks).getD j 0 := by
  have hlen : masks.length ≠ 0 := fun hl => h (List.length_eq_zero.mp hl)
  have hq : ((masks.length : ℚ)) ≠ 0 := Nat.cast_ne_zero.mpr hlen
  refine ⟨hq, ?_⟩
  intro j
  unfold colMeans
  have hmap := @List.getD_map ℚ ℚ (colSums n_channels masks) 0 j
    (fun s => s / ((masks.length : ℚ)))
  simp only [zero_div] at hmap
  rw [hmap]
  exact div_mul_cancel₀ _ hq

/-- Witness for C10: a single stored mask row gives a non-zero divisor and
exact quotients. -/
theorem mean_masks_divisor_witness :
    ((([[(1 : ℚ)/2]] : List (List ℚ)).length : ℚ) ≠ 0) ∧
      ∀ j, (colMeans 1 [[(1 : ℚ)/2]]).getD j 0 *
          ((([[(1 : ℚ)/2]] : List (List ℚ)).length : ℚ)) =
        (colSums 1 [[(1 : ℚ)/2]]).getD j 0 :=
  mean_masks_divisor 1 [[(1 : ℚ)/2]] (by decide)

end PhyStore
